import Mathlib

/-!
Verification of `sparta::FlatMap` (src/include/sparta/FlatMap.h).

The C++ class `FlatMap<Key, ValueType, Value, KeyCompare, KeyEqual, ...>`
stores a `boost::container::flat_map`, i.e. a vector of (key, value) pairs
sorted strictly ascending by key.  We embed it as `List (Nat × V)` together
with the two structural invariants:

  * `SortedKeys`  — keys are strictly ascending (invariant I2);
  * `NoDefaults`  — no stored value satisfies `is_default_value` (invariant I1).

Keys are `Nat` with `KeyCompare = (· < ·)` and `KeyEqual = (· = ·)`, matching
the default `std::less` / `std::equal_to` instantiation.  The value adapter
(`Value` in the C++ template, e.g. `pt_core::SimpleValue`) is embedded as a
record of the operations the map actually calls: `default_value`,
`is_default_value`, `equals`, `leq`, and the `AbstractDomain` queries
`is_top` / `is_bottom` used by `FlatMap::leq` to dispatch on the polarity of
the default value.  Every operation below is a direct translation of the
corresponding member function; iterator-based loops become recursion over
the suffix the iterator points at, and `std::lower_bound` from a cursor
becomes `List.dropWhile` of the keys strictly below the probe.
-/

/-- Value adapter capability record: the operations of the C++ `Value`
template parameter (plus the two `AbstractDomain` queries used by `leq`). -/
structure ValueAdapter (V : Type) where
  default_value : V
  is_default_value : V → Bool
  equals : V → V → Bool
  leq : V → V → Bool
  is_top : V → Bool
  is_bottom : V → Bool

namespace FlatMap

variable {V : Type}

/-- Keys stored in the map, in storage order. -/
def keys (l : List (Nat × V)) : List Nat := l.map Prod.fst

/-- Invariant I2: stored keys strictly ascending (hence no duplicates). -/
def SortedKeys (l : List (Nat × V)) : Prop :=
  l.Pairwise (fun p q => p.1 < q.1)

/-- Invariant I1: no stored entry holds a default value. -/
def NoDefaults (A : ValueAdapter V) (l : List (Nat × V)) : Prop :=
  ∀ p ∈ l, A.is_default_value p.2 = false

/-- First binding of key `k`, as `m_map.find(key)` (unique under I2). -/
def lookupKey (k : Nat) : List (Nat × V) → Option V
  | [] => none
  | p :: rest => if p.1 = k then some p.2 else lookupKey k rest

/-- Member `at(key)`: the stored value if present, else `default_value()`. -/
def atKey (A : ValueAdapter V) (l : List (Nat × V)) (k : Nat) : V :=
  (lookupKey k l).getD A.default_value

/-- Member `remove(key)`: `m_map.erase(key)` (drops the binding of `k`). -/
def remove (k : Nat) (l : List (Nat × V)) : List (Nat × V) :=
  l.filter (fun p => !(p.1 == k))

/-- Sorted insert-or-overwrite, the effect of `m_map.insert_or_assign`. -/
def insertPair (k : Nat) (v : V) : List (Nat × V) → List (Nat × V)
  | [] => [(k, v)]
  | p :: rest =>
    if p.1 < k then p :: insertPair k v rest
    else if p.1 = k then (k, v) :: rest
    else (k, v) :: p :: rest

/-- Member `insert_or_assign(key, value)`: a default value removes the key
(preserving I1), any other value is inserted or overwritten. -/
def insert_or_assign (A : ValueAdapter V) (k : Nat) (v : V)
    (l : List (Nat × V)) : List (Nat × V) :=
  if A.is_default_value v then remove k l else insertPair k v l

/-- Member `update(operation, key)`, as its net effect on the map: the C++
code `try_emplace`s the binding at `default_value()`, runs `operation` on it
in place, and erases the entry if the result is default.  Purely that is:
read the current value through `at`, apply the operation, then store the
result under the `insert_or_assign` default-elision rule. -/
def update (A : ValueAdapter V) (op : V → V) (k : Nat)
    (l : List (Nat × V)) : List (Nat × V) :=
  let v1 := op (atKey A l k)
  if A.is_default_value v1 then remove k l else insertPair k v1 l

/-- Member `filter(predicate)`: keep the entries satisfying the predicate
(a `remove_if` + `erase` on the underlying sequence, order preserved). -/
def filter (pred : Nat → V → Bool) (l : List (Nat × V)) : List (Nat × V) :=
  l.filter (fun p => pred p.1 p.2)

/-- Private helper `erase_default_values()`: filter out default values. -/
def erase_default_values (A : ValueAdapter V) (l : List (Nat × V)) :
    List (Nat × V) :=
  filter (fun _ v => !A.is_default_value v) l

/-- Member `map(f)`: apply `f` to every stored value, then sweep default
values if any appeared. -/
def map (A : ValueAdapter V) (f : V → V) (l : List (Nat × V)) :
    List (Nat × V) :=
  let l2 := l.map (fun p => (p.1, f p.2))
  if l2.any (fun p => A.is_default_value p.2) then erase_default_values A l2
  else l2

/-- Member `clear()`. -/
def clear (_l : List (Nat × V)) : List (Nat × V) := []

/-- The initializer-list constructor: `insert_or_assign` each pair in order
into an initially empty map. -/
def ofInitList (A : ValueAdapter V) (init : List (Nat × V)) :
    List (Nat × V) :=
  init.foldl (fun acc p => insert_or_assign A p.1 p.2 acc) []

/-- Struct `PairEqual`: key equality and adapter value equality. -/
def PairEqual (A : ValueAdapter V) (p q : Nat × V) : Bool :=
  (p.1 == q.1) && A.equals p.2 q.2

/-- Member `equals(other)`: `std::equal` over both sequences with
`PairEqual` — same length and pairwise equal. -/
def equals (A : ValueAdapter V) : List (Nat × V) → List (Nat × V) → Bool
  | [], [] => true
  | p :: l1, q :: l2 => PairEqual A p q && equals A l1 l2
  | _, _ => false

/-- Loop of `leq_when_default_is_top`: for each entry of `other`, an
early-exit size check, then `std::lower_bound` into the remaining range of
`this` (drop the keys strictly below), requiring a key match and a
pointwise `Value::leq`. -/
def leqTopLoop (A : ValueAdapter V) :
    List (Nat × V) → List (Nat × V) → Bool
  | _, [] => true
  | l, q :: orest =>
    if l.length < (q :: orest).length then false
    else
      match l.dropWhile (fun p => decide (p.1 < q.1)) with
      | [] => false
      | p :: rest =>
        if p.1 = q.1 then
          if A.leq p.2 q.2 then leqTopLoop A rest orest else false
        else false

/-- Private `leq_when_default_is_top(other)`: initial pigeonhole size
check, then the merge loop. -/
def leq_when_default_is_top (A : ValueAdapter V)
    (l other : List (Nat × V)) : Bool :=
  if l.length < other.length then false else leqTopLoop A l other

/-- Loop of `leq_when_default_is_bottom`: the mirrored walk over `this`,
binary-searching into `other`. -/
def leqBotLoop (A : ValueAdapter V) :
    List (Nat × V) → List (Nat × V) → Bool
  | [], _ => true
  | p :: rest, other =>
    if other.length < (p :: rest).length then false
    else
      match other.dropWhile (fun q => decide (q.1 < p.1)) with
      | [] => false
      | q :: orest =>
        if q.1 = p.1 then
          if A.leq p.2 q.2 then leqBotLoop A rest orest else false
        else false

/-- Private `leq_when_default_is_bottom(other)`. -/
def leq_when_default_is_bottom (A : ValueAdapter V)
    (l other : List (Nat × V)) : Bool :=
  if other.length < l.length then false else leqBotLoop A l other

/-- Member `leq(other)`: dispatch on the polarity of `default_value()`.
`none` models the `RUNTIME_CHECK(false, undefined_operation())` abort taken
when the default value is neither Top nor Bottom. -/
def leq (A : ValueAdapter V) (l other : List (Nat × V)) : Option Bool :=
  if A.is_top A.default_value then some (leq_when_default_is_top A l other)
  else if A.is_bottom A.default_value then
    some (leq_when_default_is_bottom A l other)
  else none

/-- Merge loop of `union_with(combine, other)`: walk `other`, lower-bound
into the remaining range of `this`; on a key match combine the two values,
on a miss insert the `other` entry, and when `this` is exhausted splice
the remaining tail of `other` onto the end. -/
def unionMerge (c : V → V → V) :
    List (Nat × V) → List (Nat × V) → List (Nat × V)
  | l, [] => l
  | l, q :: orest =>
    match l.dropWhile (fun p => decide (p.1 < q.1)) with
    | [] => l.takeWhile (fun p => decide (p.1 < q.1)) ++ q :: orest
    | p :: rest =>
      if p.1 = q.1 then
        l.takeWhile (fun p2 => decide (p2.1 < q.1)) ++
          (p.1, c p.2 q.2) :: unionMerge c rest orest
      else
        l.takeWhile (fun p2 => decide (p2.1 < q.1)) ++
          (q.1, q.2) :: unionMerge c (p :: rest) orest

/-- Member `union_with(combine, other)`: the merge, then
`erase_default_values()`. -/
def union_with (A : ValueAdapter V) (c : V → V → V)
    (l other : List (Nat × V)) : List (Nat × V) :=
  erase_default_values A (unionMerge c l other)

/-- Merge loop of `intersection_with(combine, other)`: walk `this`,
lower-bound into the remaining range of `other`; when `other` is exhausted
the rest of `this` is erased, on a key match the values are combined, and
on a miss the entry is forced to the default value (swept afterwards). -/
def interMerge (A : ValueAdapter V) (c : V → V → V) :
    List (Nat × V) → List (Nat × V) → List (Nat × V)
  | [], _ => []
  | p :: rest, other =>
    match other.dropWhile (fun q => decide (q.1 < p.1)) with
    | [] => []
    | q :: orest =>
      if q.1 = p.1 then (p.1, c p.2 q.2) :: interMerge A c rest orest
      else (p.1, A.default_value) :: interMerge A c rest (q :: orest)

/-- Member `intersection_with(combine, other)`: the merge, then
`erase_default_values()`. -/
def intersection_with (A : ValueAdapter V) (c : V → V → V)
    (l other : List (Nat × V)) : List (Nat × V) :=
  erase_default_values A (interMerge A c l other)

/-! ### Basic lemmas about `lookupKey`, `keys`, sortedness and `dropWhile` -/

theorem lookupKey_cons_ne {p : Nat × V} {l : List (Nat × V)} {k : Nat}
    (h : p.1 ≠ k) : lookupKey k (p :: l) = lookupKey k l := by
  simp [lookupKey, h]

theorem lookupKey_mem {k : Nat} {l : List (Nat × V)} {v : V}
    (h : lookupKey k l = some v) : (k, v) ∈ l := by
  induction l with
  | nil => simp [lookupKey] at h
  | cons p rest ih =>
    obtain ⟨k1, v1⟩ := p
    by_cases hk : k1 = k
    · subst hk
      simp [lookupKey] at h
      subst h; exact List.mem_cons_self _ _
    · rw [lookupKey_cons_ne hk] at h
      exact List.mem_cons_of_mem _ (ih h)

theorem mem_keys_of_lookupKey {k : Nat} {l : List (Nat × V)} {v : V}
    (h : lookupKey k l = some v) : k ∈ keys l :=
  List.mem_map.mpr ⟨(k, v), lookupKey_mem h, rfl⟩

theorem lookupKey_eq_none {k : Nat} {l : List (Nat × V)}
    (h : ∀ p ∈ l, p.1 ≠ k) : lookupKey k l = none := by
  induction l with
  | nil => rfl
  | cons p rest ih =>
    rw [lookupKey_cons_ne (h p (List.mem_cons_self _ _))]
    exact ih (fun q hq => h q (List.mem_cons_of_mem _ hq))

theorem lookupKey_of_sorted_mem {k : Nat} {v : V} {l : List (Nat × V)}
    (hs : SortedKeys l) (h : (k, v) ∈ l) : lookupKey k l = some v := by
  induction l with
  | nil => cases h
  | cons p rest ih =>
    rw [SortedKeys, List.pairwise_cons] at hs
    rcases List.mem_cons.mp h with h | h
    · subst h; simp [lookupKey]
    · have hlt : p.1 < k := hs.1 (k, v) h
      rw [lookupKey_cons_ne (Nat.ne_of_lt hlt)]
      exact ih hs.2 h

theorem lookupKey_append_of_ne_left {k : Nat} {l1 l2 : List (Nat × V)}
    (h : ∀ p ∈ l1, p.1 ≠ k) :
    lookupKey k (l1 ++ l2) = lookupKey k l2 := by
  induction l1 with
  | nil => rfl
  | cons p rest ih =>
    rw [List.cons_append, lookupKey_cons_ne (h p (List.mem_cons_self _ _))]
    exact ih (fun q hq => h q (List.mem_cons_of_mem _ hq))

theorem lookupKey_dropWhile (k : Nat) (l : List (Nat × V)) :
    lookupKey k (l.dropWhile (fun p => decide (p.1 < k))) = lookupKey k l := by
  induction l with
  | nil => rfl
  | cons p rest ih =>
    by_cases hlt : p.1 < k
    · rw [List.dropWhile_cons, if_pos (by simpa using hlt), ih,
        lookupKey_cons_ne (Nat.ne_of_lt hlt)]
    · rw [List.dropWhile_cons, if_neg (by simpa using hlt)]

theorem dropWhile_head_false {f : Nat × V → Bool} {l rest : List (Nat × V)}
    {p : Nat × V} (h : l.dropWhile f = p :: rest) : f p = false := by
  induction l with
  | nil => cases h
  | cons q t ih =>
    rw [List.dropWhile_cons] at h
    by_cases hq : f q = true
    · exact ih (by rwa [if_pos hq] at h)
    · rw [if_neg hq] at h
      cases h
      exact Bool.eq_false_iff.mpr hq

theorem mem_takeWhile_key_lt {k : Nat} {l : List (Nat × V)} {p : Nat × V}
    (h : p ∈ l.takeWhile (fun q => decide (q.1 < k))) : p.1 < k := by
  have := List.mem_takeWhile_imp h
  simpa using this

theorem sorted_dropWhile_eq_cons {k : Nat} {v : V} {l : List (Nat × V)}
    (hs : SortedKeys l) (h : lookupKey k l = some v) :
    ∃ rest, l.dropWhile (fun p => decide (p.1 < k)) = (k, v) :: rest := by
  have hd : lookupKey k (l.dropWhile (fun p => decide (p.1 < k))) = some v := by
    rw [lookupKey_dropWhile]; exact h
  have hds : SortedKeys (l.dropWhile (fun p => decide (p.1 < k))) :=
    List.Pairwise.sublist (List.dropWhile_sublist _) hs
  cases hdd : l.dropWhile (fun p => decide (p.1 < k)) with
  | nil => rw [hdd] at hd; cases hd
  | cons p rest =>
    have hnlt : ¬ p.1 < k := by
      have := dropWhile_head_false hdd
      simpa using this
    rw [hdd] at hd hds
    rw [SortedKeys, List.pairwise_cons] at hds
    by_cases hpk : p.1 = k
    · obtain ⟨k1, v1⟩ := p
      simp only at hpk
      subst hpk
      simp [lookupKey] at hd
      rw [hd]
      exact ⟨rest, rfl⟩
    · exfalso
      have hklt : k < p.1 := Nat.lt_of_le_of_ne (Nat.le_of_not_lt hnlt)
        (fun he => hpk he.symm)
      rw [lookupKey_cons_ne hpk] at hd
      have : lookupKey k rest = none :=
        lookupKey_eq_none (fun q hq =>
          Nat.ne_of_gt (Nat.lt_trans hklt (hds.1 q hq)))
      rw [this] at hd; cases hd

theorem nodup_keys {l : List (Nat × V)} (hs : SortedKeys l) :
    (keys l).Nodup := by
  have : (keys l).Pairwise (· < ·) := by
    rw [keys, List.pairwise_map]; exact hs
  exact this.imp Nat.ne_of_lt

theorem mem_keys_iff {k : Nat} {l : List (Nat × V)} :
    k ∈ keys l ↔ ∃ p ∈ l, p.1 = k := by
  simp [keys, List.mem_map]

theorem length_le_of_keys_lookup {l o : List (Nat × V)}
    (hso : SortedKeys o)
    (h : ∀ p ∈ o, ∃ v, lookupKey p.1 l = some v) :
    o.length ≤ l.length := by
  have hsub : keys o ⊆ keys l := by
    intro k hk
    obtain ⟨p, hp, hpk⟩ := mem_keys_iff.mp hk
    obtain ⟨v, hv⟩ := h p hp
    rw [hpk] at hv
    exact mem_keys_of_lookupKey hv
  have := ((nodup_keys hso).subperm hsub).length_le
  simpa [keys] using this

end FlatMap

namespace FlatMap
variable {V : Type}

theorem leqTopLoop_cons (A : ValueAdapter V) (l : List (Nat × V)) (q : Nat × V)
    (orest : List (Nat × V)) :
    leqTopLoop A l (q :: orest) =
      if l.length < (q :: orest).length then false
      else
        match l.dropWhile (fun p => decide (p.1 < q.1)) with
        | [] => false
        | p :: rest =>
          if p.1 = q.1 then
            if A.leq p.2 q.2 then leqTopLoop A rest orest else false
          else false := by
  rw [leqTopLoop]

end FlatMap

namespace FlatMap
variable {V : Type}

theorem leqTopLoop_eq_true_iff (A : ValueAdapter V) :
    ∀ (other l : List (Nat × V)), SortedKeys l → SortedKeys other →
    (leqTopLoop A l other = true ↔
      ∀ p ∈ other, ∃ v, lookupKey p.1 l = some v ∧ A.leq v p.2 = true) := by
  intro other
  induction other with
  | nil => intro l _ _; simp [leqTopLoop]
  | cons q orest ih =>
    intro l hsl hso
    have hso' := List.pairwise_cons.mp hso
    have hsorest : SortedKeys orest := hso'.2
    have horest_gt : ∀ p ∈ orest, q.1 < p.1 := hso'.1
    have hsplit := List.takeWhile_append_dropWhile
      (fun p => decide (p.1 < q.1)) l
    constructor
    · intro h
      rw [leqTopLoop_cons] at h
      by_cases hlen : l.length < (q :: orest).length
      · rw [if_pos hlen] at h; cases h
      rw [if_neg hlen] at h
      cases hdd : l.dropWhile (fun p => decide (p.1 < q.1)) with
      | nil => rw [hdd] at h; cases h
      | cons p rest =>
        rw [hdd] at h
        simp only at h
        by_cases hpq : p.1 = q.1
        · rw [if_pos hpq] at h
          by_cases hleq : A.leq p.2 q.2 = true
          · rw [if_pos hleq] at h
            -- h : leqTopLoop A rest orest = true
            have hlk : lookupKey q.1 l = some p.2 := by
              rw [← lookupKey_dropWhile q.1 l, hdd, ← hpq]
              simp [lookupKey]
            have hsrest : SortedKeys rest := by
              have : SortedKeys (p :: rest) := by
                rw [← hdd]
                exact List.Pairwise.sublist (List.dropWhile_sublist _) hsl
              exact (List.pairwise_cons.mp this).2
            intro p' hp'
            rcases List.mem_cons.mp hp' with hp' | hp'
            · subst hp'; exact ⟨p.2, hlk, hleq⟩
            · obtain ⟨v, hv, hvleq⟩ := (ih rest hsrest hsorest).mp h p' hp'
              refine ⟨v, ?_, hvleq⟩
              have hgt : q.1 < p'.1 := horest_gt p' hp'
              calc lookupKey p'.1 l
                  = lookupKey p'.1 (l.takeWhile (fun p2 => decide (p2.1 < q.1))
                      ++ (p :: rest)) := by rw [← hdd, hsplit]
                _ = lookupKey p'.1 (p :: rest) :=
                    lookupKey_append_of_ne_left (fun r hr =>
                      Nat.ne_of_lt (Nat.lt_trans (mem_takeWhile_key_lt hr) hgt))
                _ = lookupKey p'.1 rest :=
                    lookupKey_cons_ne (by rw [hpq]; exact Nat.ne_of_lt hgt)
                _ = some v := hv
          · rw [if_neg hleq] at h; cases h
        · rw [if_neg hpq] at h; cases h
    · intro hprop
      rw [leqTopLoop_cons]
      have hlen : ¬ l.length < (q :: orest).length := by
        have := length_le_of_keys_lookup hso
          (fun p hp => ⟨(hprop p hp).choose, (hprop p hp).choose_spec.1⟩)
        omega
      rw [if_neg hlen]
      obtain ⟨v, hv, hvleq⟩ := hprop q (List.mem_cons_self _ _)
      obtain ⟨rest, hdd⟩ := sorted_dropWhile_eq_cons hsl hv
      rw [hdd]
      simp only
      rw [if_pos trivial, if_pos hvleq]
      have hsrest : SortedKeys rest := by
        have : SortedKeys ((q.1, v) :: rest) := by
          rw [← hdd]
          exact List.Pairwise.sublist (List.dropWhile_sublist _) hsl
        exact (List.pairwise_cons.mp this).2
      refine (ih rest hsrest hsorest).mpr ?_
      intro p' hp'
      obtain ⟨v', hv', hvleq'⟩ := hprop p' (List.mem_cons_of_mem _ hp')
      refine ⟨v', ?_, hvleq'⟩
      have hgt : q.1 < p'.1 := horest_gt p' hp'
      calc lookupKey p'.1 rest
          = lookupKey p'.1 ((q.1, v) :: rest) :=
            (lookupKey_cons_ne (p := (q.1, v)) (Nat.ne_of_lt hgt)).symm
        _ = lookupKey p'.1 (l.takeWhile (fun p2 => decide (p2.1 < q.1))
              ++ ((q.1, v) :: rest)) :=
            (lookupKey_append_of_ne_left (fun r hr =>
              Nat.ne_of_lt (Nat.lt_trans (mem_takeWhile_key_lt hr) hgt))).symm
        _ = lookupKey p'.1 l := by rw [← hdd, hsplit]
        _ = some v' := hv'

end FlatMap

namespace FlatMap
variable {V : Type}

theorem leqBotLoop_cons (A : ValueAdapter V) (p : Nat × V)
    (rest other : List (Nat × V)) :
    leqBotLoop A (p :: rest) other =
      if other.length < (p :: rest).length then false
      else
        match other.dropWhile (fun q => decide (q.1 < p.1)) with
        | [] => false
        | q :: orest =>
          if q.1 = p.1 then
            if A.leq p.2 q.2 then leqBotLoop A rest orest else false
          else false := by
  rw [leqBotLoop]

theorem leqBotLoop_eq_true_iff (A : ValueAdapter V) :
    ∀ (l other : List (Nat × V)), SortedKeys l → SortedKeys other →
    (leqBotLoop A l other = true ↔
      ∀ p ∈ l, ∃ v, lookupKey p.1 other = some v ∧ A.leq p.2 v = true) := by
  intro l
  induction l with
  | nil => intro other _ _; simp [leqBotLoop]
  | cons p rest ih =>
    intro other hsl hso
    have hsl' := List.pairwise_cons.mp hsl
    have hsrest : SortedKeys rest := hsl'.2
    have hrest_gt : ∀ r ∈ rest, p.1 < r.1 := hsl'.1
    have hsplit := List.takeWhile_append_dropWhile
      (fun q => decide (q.1 < p.1)) other
    constructor
    · intro h
      rw [leqBotLoop_cons] at h
      by_cases hlen : other.length < (p :: rest).length
      · rw [if_pos hlen] at h; cases h
      rw [if_neg hlen] at h
      cases hdd : other.dropWhile (fun q => decide (q.1 < p.1)) with
      | nil => rw [hdd] at h; cases h
      | cons q orest =>
        rw [hdd] at h
        simp only at h
        by_cases hqp : q.1 = p.1
        · rw [if_pos hqp] at h
          by_cases hleq : A.leq p.2 q.2 = true
          · rw [if_pos hleq] at h
            have hlk : lookupKey p.1 other = some q.2 := by
              rw [← lookupKey_dropWhile p.1 other, hdd, ← hqp]
              simp [lookupKey]
            have hsorest : SortedKeys orest := by
              have : SortedKeys (q :: orest) := by
                rw [← hdd]
                exact List.Pairwise.sublist (List.dropWhile_sublist _) hso
              exact (List.pairwise_cons.mp this).2
            intro p' hp'
            rcases List.mem_cons.mp hp' with hp' | hp'
            · subst hp'; exact ⟨q.2, hlk, hleq⟩
            · obtain ⟨v, hv, hvleq⟩ := (ih orest hsrest hsorest).mp h p' hp'
              refine ⟨v, ?_, hvleq⟩
              have hgt : p.1 < p'.1 := hrest_gt p' hp'
              calc lookupKey p'.1 other
                  = lookupKey p'.1 (other.takeWhile (fun q2 => decide (q2.1 < p.1))
                      ++ (q :: orest)) := by rw [← hdd, hsplit]
                _ = lookupKey p'.1 (q :: orest) :=
                    lookupKey_append_of_ne_left (fun r hr =>
                      Nat.ne_of_lt (Nat.lt_trans (mem_takeWhile_key_lt hr) hgt))
                _ = lookupKey p'.1 orest :=
                    lookupKey_cons_ne (by rw [hqp]; exact Nat.ne_of_lt hgt)
                _ = some v := hv
          · rw [if_neg hleq] at h; cases h
        · rw [if_neg hqp] at h; cases h
    · intro hprop
      rw [leqBotLoop_cons]
      have hlen : ¬ other.length < (p :: rest).length := by
        have := length_le_of_keys_lookup hsl
          (fun r hr => ⟨(hprop r hr).choose, (hprop r hr).choose_spec.1⟩)
        omega
      rw [if_neg hlen]
      obtain ⟨v, hv, hvleq⟩ := hprop p (List.mem_cons_self _ _)
      obtain ⟨orest, hdd⟩ := sorted_dropWhile_eq_cons hso hv
      rw [hdd]
      simp only
      rw [if_pos trivial, if_pos hvleq]
      have hsorest : SortedKeys orest := by
        have : SortedKeys ((p.1, v) :: orest) := by
          rw [← hdd]
          exact List.Pairwise.sublist (List.dropWhile_sublist _) hso
        exact (List.pairwise_cons.mp this).2
      refine (ih orest hsrest hsorest).mpr ?_
      intro p' hp'
      obtain ⟨v', hv', hvleq'⟩ := hprop p' (List.mem_cons_of_mem _ hp')
      refine ⟨v', ?_, hvleq'⟩
      have hgt : p.1 < p'.1 := hrest_gt p' hp'
      calc lookupKey p'.1 orest
          = lookupKey p'.1 ((p.1, v) :: orest) :=
            (lookupKey_cons_ne (p := (p.1, v)) (Nat.ne_of_lt hgt)).symm
        _ = lookupKey p'.1 (other.takeWhile (fun q2 => decide (q2.1 < p.1))
              ++ ((p.1, v) :: orest)) :=
            (lookupKey_append_of_ne_left (fun r hr =>
              Nat.ne_of_lt (Nat.lt_trans (mem_takeWhile_key_lt hr) hgt))).symm
        _ = lookupKey p'.1 other := by rw [← hdd, hsplit]
        _ = some v' := hv'

end FlatMap

namespace FlatMap
variable {V : Type}

theorem leq_when_default_is_top_iff (A : ValueAdapter V)
    {l other : List (Nat × V)}
    (hsl : SortedKeys l) (hso : SortedKeys other) :
    leq_when_default_is_top A l other = true ↔
      ∀ p ∈ other, ∃ v, lookupKey p.1 l = some v ∧ A.leq v p.2 = true := by
  rw [leq_when_default_is_top]
  by_cases hlen : l.length < other.length
  · rw [if_pos hlen]
    constructor
    · intro h; cases h
    · intro hprop
      exfalso
      have := length_le_of_keys_lookup hso
        (fun p hp => ⟨(hprop p hp).choose, (hprop p hp).choose_spec.1⟩)
      omega
  · rw [if_neg hlen]
    exact leqTopLoop_eq_true_iff A other l hsl hso

theorem leq_when_default_is_bottom_iff (A : ValueAdapter V)
    {l other : List (Nat × V)}
    (hsl : SortedKeys l) (hso : SortedKeys other) :
    leq_when_default_is_bottom A l other = true ↔
      ∀ p ∈ l, ∃ v, lookupKey p.1 other = some v ∧ A.leq p.2 v = true := by
  rw [leq_when_default_is_bottom]
  by_cases hlen : other.length < l.length
  · rw [if_pos hlen]
    constructor
    · intro h; cases h
    · intro hprop
      exfalso
      have := length_le_of_keys_lookup hsl
        (fun p hp => ⟨(hprop p hp).choose, (hprop p hp).choose_spec.1⟩)
      omega
  · rw [if_neg hlen]
    exact leqBotLoop_eq_true_iff A l other hsl hso

theorem submap_iff_pointwise_top (A : ValueAdapter V)
    {l other : List (Nat × V)}
    (hso : SortedKeys other) (hnd : NoDefaults A other)
    (hmax : ∀ v, A.leq v A.default_value = true)
    (hstrict : ∀ v, A.leq A.default_value v = true →
      A.is_default_value v = true) :
    (∀ p ∈ other, ∃ v, lookupKey p.1 l = some v ∧ A.leq v p.2 = true) ↔
      ∀ k, A.leq (atKey A l k) (atKey A other k) = true := by
  constructor
  · intro hprop k
    cases hlk : lookupKey k other with
    | none =>
      rw [atKey, atKey, hlk, Option.getD_none]
      exact hmax _
    | some v2 =>
      obtain ⟨v1, hv1, hleq⟩ := hprop (k, v2) (lookupKey_mem hlk)
      rw [atKey, atKey, hlk, Option.getD_some]
      simp only at hv1
      rw [hv1, Option.getD_some]
      exact hleq
  · intro hpw p hp
    have hlko : lookupKey p.1 other = some p.2 := by
      have : (p.1, p.2) ∈ other := by simpa using hp
      exact lookupKey_of_sorted_mem hso this
    have h := hpw p.1
    rw [atKey, atKey, hlko, Option.getD_some] at h
    cases hlk : lookupKey p.1 l with
    | none =>
      rw [hlk, Option.getD_none] at h
      have := hstrict _ h
      rw [hnd p hp] at this
      cases this
    | some v1 =>
      rw [hlk, Option.getD_some] at h
      exact ⟨v1, rfl, h⟩

theorem submap_iff_pointwise_bot (A : ValueAdapter V)
    {l other : List (Nat × V)}
    (hsl : SortedKeys l) (hnd : NoDefaults A l)
    (hbot : ∀ v, A.leq A.default_value v = true)
    (hstrict : ∀ v, A.leq v A.default_value = true →
      A.is_default_value v = true) :
    (∀ p ∈ l, ∃ v, lookupKey p.1 other = some v ∧ A.leq p.2 v = true) ↔
      ∀ k, A.leq (atKey A l k) (atKey A other k) = true := by
  constructor
  · intro hprop k
    cases hlk : lookupKey k l with
    | none =>
      rw [atKey, atKey, hlk, Option.getD_none]
      exact hbot _
    | some v1 =>
      obtain ⟨v2, hv2, hleq⟩ := hprop (k, v1) (lookupKey_mem hlk)
      rw [atKey, atKey, hlk, Option.getD_some]
      simp only at hv2
      rw [hv2, Option.getD_some]
      exact hleq
  · intro hpw p hp
    have hlkl : lookupKey p.1 l = some p.2 := by
      have : (p.1, p.2) ∈ l := by simpa using hp
      exact lookupKey_of_sorted_mem hsl this
    have h := hpw p.1
    rw [atKey, atKey, hlkl, Option.getD_some] at h
    cases hlk : lookupKey p.1 other with
    | none =>
      rw [hlk, Option.getD_none] at h
      have := hstrict _ h
      rw [hnd p hp] at this
      cases this
    | some v2 =>
      rw [hlk, Option.getD_some] at h
      exact ⟨v2, rfl, h⟩

end FlatMap

/-- Concrete adapter over `Nat` whose default value `0` is Bottom for the
usual order on `Nat`. -/
def botNatAdapter : ValueAdapter Nat where
  default_value := 0
  is_default_value := fun v => v == 0
  equals := fun a b => a == b
  leq := Nat.ble
  is_top := fun _ => false
  is_bottom := fun v => v == 0

/-- Concrete adapter over `Nat` whose default value `0` plays Top:
`leq a b` holds when `b` is `0` (Top) or `a = b`. -/
def topNatAdapter : ValueAdapter Nat where
  default_value := 0
  is_default_value := fun v => v == 0
  equals := fun a b => a == b
  leq := fun a b => (b == 0) || (a == b)
  is_top := fun v => v == 0
  is_bottom := fun _ => false

/-- Concrete adapter whose default value is neither Top nor Bottom. -/
def neitherNatAdapter : ValueAdapter Nat where
  default_value := 0
  is_default_value := fun v => v == 0
  equals := fun a b => a == b
  leq := Nat.ble
  is_top := fun _ => false
  is_bottom := fun _ => false

/-- C1: for maps satisfying I1 and I2 over an adapter whose default value
is Top (greatest for the adapter's `leq`, strictly above every non-default
value) or Bottom (least, strictly below every non-default value),
`FlatMap::leq` returns true exactly when the total function represented by
`this` is pointwise `leq` the total function represented by `other`, over
the whole unbounded key domain — not merely over the stored entries. -/
theorem leq_decides_pointwise_order {V : Type} (A : ValueAdapter V)
    (m1 m2 : List (Nat × V))
    (hs1 : FlatMap.SortedKeys m1) (hs2 : FlatMap.SortedKeys m2)
    (hd1 : FlatMap.NoDefaults A m1) (hd2 : FlatMap.NoDefaults A m2)
    (hpol :
      (A.is_top A.default_value = true ∧
        (∀ v, A.leq v A.default_value = true) ∧
        (∀ v, A.leq A.default_value v = true →
          A.is_default_value v = true)) ∨
      (A.is_top A.default_value = false ∧
        A.is_bottom A.default_value = true ∧
        (∀ v, A.leq A.default_value v = true) ∧
        (∀ v, A.leq v A.default_value = true →
          A.is_default_value v = true))) :
    FlatMap.leq A m1 m2 = some true ↔
      ∀ k, A.leq (FlatMap.atKey A m1 k) (FlatMap.atKey A m2 k) = true := by
  rcases hpol with ⟨htop, hmax, hstrict⟩ | ⟨hntop, hbot, hbotle, hstrict⟩
  · rw [FlatMap.leq, if_pos htop]
    simp only [Option.some.injEq]
    exact (FlatMap.leq_when_default_is_top_iff A hs1 hs2).trans
      (FlatMap.submap_iff_pointwise_top A hs2 hd2 hmax hstrict)
  · rw [FlatMap.leq, if_neg (by simp [hntop]), if_pos hbot]
    simp only [Option.some.injEq]
    exact (FlatMap.leq_when_default_is_bottom_iff A hs1 hs2).trans
      (FlatMap.submap_iff_pointwise_bot A hs1 hd1 hbotle hstrict)

/-- Witness for C1 at a concrete Bottom-default adapter and concrete maps. -/
theorem leq_decides_pointwise_order_witness :
    FlatMap.leq botNatAdapter [(1, 2)] [(1, 2), (3, 4)] = some true ↔
      ∀ k, botNatAdapter.leq
        (FlatMap.atKey botNatAdapter [(1, 2)] k)
        (FlatMap.atKey botNatAdapter [(1, 2), (3, 4)] k) = true :=
  leq_decides_pointwise_order botNatAdapter [(1, 2)] [(1, 2), (3, 4)]
    (by simp [FlatMap.SortedKeys]) (by simp [FlatMap.SortedKeys])
    (by simp [FlatMap.NoDefaults, botNatAdapter])
    (by simp [FlatMap.NoDefaults, botNatAdapter])
    (Or.inr ⟨rfl, rfl,
      fun v => by simp [botNatAdapter],
      fun v h => by
        have : v ≤ 0 := by simpa [botNatAdapter] using h
        simp [botNatAdapter, Nat.le_zero.mp this]⟩)

namespace FlatMap
variable {V : Type}

theorem lookupKey_eq_none_iff {k : Nat} {l : List (Nat × V)} :
    lookupKey k l = none ↔ ∀ p ∈ l, p.1 ≠ k := by
  induction l with
  | nil => simp [lookupKey]
  | cons p rest ih =>
    by_cases hp : p.1 = k
    · simp [lookupKey, hp]
    · rw [lookupKey_cons_ne hp, ih]
      simp [hp]

theorem lookupKey_remove_self (k : Nat) (l : List (Nat × V)) :
    lookupKey k (remove k l) = none := by
  apply lookupKey_eq_none
  intro p hp
  have := (List.mem_filter.mp hp).2
  simpa using this

theorem lookupKey_remove_ne {k k2 : Nat} (hne : k2 ≠ k)
    (l : List (Nat × V)) :
    lookupKey k2 (remove k l) = lookupKey k2 l := by
  induction l with
  | nil => rfl
  | cons p rest ih =>
    rw [remove, List.filter_cons]
    by_cases hpk : p.1 = k
    · have hp2 : p.1 ≠ k2 := by rw [hpk]; exact fun h => hne h.symm
      rw [if_neg (by simp [hpk]), lookupKey_cons_ne hp2]
      exact ih
    · rw [if_pos (by simp [hpk])]
      by_cases hp2 : p.1 = k2
      · simp [lookupKey, hp2]
      · rw [lookupKey_cons_ne hp2, lookupKey_cons_ne hp2]
        exact ih

theorem remove_eq_self {k : Nat} {l : List (Nat × V)}
    (h : lookupKey k l = none) : remove k l = l := by
  rw [remove, List.filter_eq_self]
  intro p hp
  have := lookupKey_eq_none_iff.mp h p hp
  simpa using this

theorem lookupKey_insertPair_ne {k k2 : Nat} (hne : k2 ≠ k) (v : V)
    (l : List (Nat × V)) :
    lookupKey k2 (insertPair k v l) = lookupKey k2 l := by
  induction l with
  | nil => exact lookupKey_cons_ne (p := (k, v)) (fun hh => hne hh.symm)
  | cons p rest ih =>
    rw [insertPair]
    by_cases h1 : p.1 < k
    · rw [if_pos h1]
      by_cases hp2 : p.1 = k2
      · simp [lookupKey, hp2]
      · rw [lookupKey_cons_ne hp2, lookupKey_cons_ne hp2]
        exact ih
    · rw [if_neg h1]
      by_cases h2 : p.1 = k
      · rw [if_pos h2]
        rw [lookupKey_cons_ne (p := (k, v)) (fun hh => hne hh.symm),
          lookupKey_cons_ne (by rw [h2]; exact fun hh => hne hh.symm)]
      · rw [if_neg h2]
        exact lookupKey_cons_ne (p := (k, v)) (fun hh => hne hh.symm)

end FlatMap

/-- C5: when the adapter's default value is neither Top nor Bottom, `leq`
aborts with the undefined-operation error (modelled as `none`) instead of
returning a boolean; when the default value is Top or Bottom, `leq` returns
a boolean and no error is raised.  (`leq` is a `const` member: in this pure
embedding it produces no new map at all, so neither operand can mutate.) -/
theorem leq_undefined_operation {V : Type} (A : ValueAdapter V)
    (l other : List (Nat × V)) :
    (A.is_top A.default_value = false → A.is_bottom A.default_value = false →
      FlatMap.leq A l other = none) ∧
    ((A.is_top A.default_value = true ∨ A.is_bottom A.default_value = true) →
      ∃ b, FlatMap.leq A l other = some b) := by
  constructor
  · intro h1 h2
    rw [FlatMap.leq, if_neg (by simp [h1]), if_neg (by simp [h2])]
  · intro h
    by_cases ht : A.is_top A.default_value = true
    · exact ⟨_, by rw [FlatMap.leq, if_pos ht]⟩
    · rcases h with h | h
      · exact absurd h ht
      · exact ⟨_, by rw [FlatMap.leq, if_neg ht, if_pos h]⟩

/-- Witness for C5: the neither-Top-nor-Bottom adapter aborts, the
Bottom-default adapter returns a boolean. -/
theorem leq_undefined_operation_witness :
    FlatMap.leq neitherNatAdapter [(0, 1)] [(1, 2)] = none ∧
    ∃ b, FlatMap.leq botNatAdapter [(0, 1)] [(1, 2)] = some b :=
  ⟨(leq_undefined_operation neitherNatAdapter [(0, 1)] [(1, 2)]).1
      (by decide) (by decide),
    (leq_undefined_operation botNatAdapter [(0, 1)] [(1, 2)]).2
      (Or.inr (by decide))⟩

/-- C6 counterexample: with the concrete Top-default adapter and the maps
m1 = (x:5) and m2 = (x:5, y:7) (x = 0, y = 1), the claimed pair of results
"m1.leq(m2) = true and m2.leq(m1) = false" does not hold of the code. -/
theorem leq_top_example_counterexample :
    ¬ (FlatMap.leq topNatAdapter [(0, 5)] [(0, 5), (1, 7)] = some true ∧
       FlatMap.leq topNatAdapter [(0, 5), (1, 7)] [(0, 5)] = some false) := by
  decide

/-- C6 amended: with a Top-default adapter (any adapter over `Nat` whose
default value answers `is_top`, with `leq 5 5` reflexive), for m1 = (x:5)
and m2 = (x:5, y:7), `m1.leq(m2)` returns false — m1 stores fewer
non-default entries, so the pigeonhole size check fails it — and
`m2.leq(m1)` returns true. -/
theorem leq_top_example (A : ValueAdapter Nat)
    (htop : A.is_top A.default_value = true)
    (h55 : A.leq 5 5 = true) :
    FlatMap.leq A [(0, 5)] [(0, 5), (1, 7)] = some false ∧
    FlatMap.leq A [(0, 5), (1, 7)] [(0, 5)] = some true := by
  constructor
  · rw [FlatMap.leq, if_pos htop]
    rfl
  · rw [FlatMap.leq, if_pos htop]
    simp [FlatMap.leq_when_default_is_top, FlatMap.leqTopLoop, h55]

/-- Witness for the amended C6 at the concrete Top-default adapter. -/
theorem leq_top_example_witness :
    FlatMap.leq topNatAdapter [(0, 5)] [(0, 5), (1, 7)] = some false ∧
    FlatMap.leq topNatAdapter [(0, 5), (1, 7)] [(0, 5)] = some true :=
  leq_top_example topNatAdapter (by decide) (by decide)

/-- C7: with the Bottom-default adapter and combine = integer max, for
m1 = (a:1, b:2) and m2 = (b:2, c:3) (a = 0, b = 1, c = 2), `union_with`
yields (a:1, b:2, c:3) and `intersection_with` yields (b:2). -/
theorem union_intersection_example :
    FlatMap.union_with botNatAdapter (fun a b => Nat.max a b)
      [(0, 1), (1, 2)] [(1, 2), (2, 3)] = [(0, 1), (1, 2), (2, 3)] ∧
    FlatMap.intersection_with botNatAdapter (fun a b => Nat.max a b)
      [(0, 1), (1, 2)] [(1, 2), (2, 3)] = [(1, 2)] := by
  decide

/-- C8: intersecting with the empty map empties `this`: no entries are
stored afterwards and every key reads back the default value. -/
theorem intersection_with_empty_absorbs {V : Type} (A : ValueAdapter V)
    (c : V → V → V) (l : List (Nat × V)) :
    FlatMap.intersection_with A c l [] = [] ∧
    ∀ k, FlatMap.atKey A (FlatMap.intersection_with A c l []) k =
      A.default_value := by
  have h : FlatMap.intersection_with A c l [] = [] := by
    cases l <;> rfl
  exact ⟨h, fun k => by rw [h]; rfl⟩

/-- C9: `insert_or_assign(k, default())` is exactly `remove(k)`: the same
resulting map, no binding left at `k`, every other binding untouched, and a
no-op when `k` is absent. -/
theorem insert_or_assign_default_eq_remove {V : Type} (A : ValueAdapter V)
    (k : Nat) (l : List (Nat × V))
    (hdef : A.is_default_value A.default_value = true) :
    FlatMap.insert_or_assign A k A.default_value l = FlatMap.remove k l ∧
    FlatMap.lookupKey k (FlatMap.insert_or_assign A k A.default_value l) =
      none ∧
    (∀ k2, k2 ≠ k →
      FlatMap.atKey A (FlatMap.insert_or_assign A k A.default_value l) k2 =
        FlatMap.atKey A l k2) ∧
    (FlatMap.lookupKey k l = none →
      FlatMap.insert_or_assign A k A.default_value l = l) := by
  have heq : FlatMap.insert_or_assign A k A.default_value l =
      FlatMap.remove k l := by
    rw [FlatMap.insert_or_assign, if_pos hdef]
  refine ⟨heq, ?_, ?_, ?_⟩
  · rw [heq]
    exact FlatMap.lookupKey_remove_self k l
  · intro k2 hne
    rw [heq, FlatMap.atKey, FlatMap.atKey, FlatMap.lookupKey_remove_ne hne]
  · intro habs
    rw [heq]
    exact FlatMap.remove_eq_self habs

/-- Witness for C9 at the concrete Bottom-default adapter. -/
theorem insert_or_assign_default_eq_remove_witness :
    FlatMap.insert_or_assign botNatAdapter 1 botNatAdapter.default_value
      [(1, 2), (3, 4)] = FlatMap.remove 1 [(1, 2), (3, 4)] ∧
    FlatMap.lookupKey 1 (FlatMap.insert_or_assign botNatAdapter 1
      botNatAdapter.default_value [(1, 2), (3, 4)]) = none ∧
    (∀ k2, k2 ≠ 1 →
      FlatMap.atKey botNatAdapter (FlatMap.insert_or_assign botNatAdapter 1
        botNatAdapter.default_value [(1, 2), (3, 4)]) k2 =
        FlatMap.atKey botNatAdapter [(1, 2), (3, 4)] k2) ∧
    (FlatMap.lookupKey 1 [(1, 2), (3, 4)] = none →
      FlatMap.insert_or_assign botNatAdapter 1 botNatAdapter.default_value
        [(1, 2), (3, 4)] = [(1, 2), (3, 4)]) :=
  insert_or_assign_default_eq_remove botNatAdapter 1 [(1, 2), (3, 4)]
    (by decide)

/-- C10: point mutations at key `k` (insert_or_assign, remove, update) do
not change the binding observed by `at` for any other key `k2`. -/
theorem point_mutation_frame {V : Type} (A : ValueAdapter V) (op : V → V)
    (k k2 : Nat) (v : V) (l : List (Nat × V)) (hne : k2 ≠ k) :
    FlatMap.atKey A (FlatMap.insert_or_assign A k v l) k2 =
      FlatMap.atKey A l k2 ∧
    FlatMap.atKey A (FlatMap.remove k l) k2 = FlatMap.atKey A l k2 ∧
    FlatMap.atKey A (FlatMap.update A op k l) k2 = FlatMap.atKey A l k2 := by
  refine ⟨?_, ?_, ?_⟩
  · rw [FlatMap.insert_or_assign]
    by_cases hd : A.is_default_value v = true
    · rw [if_pos hd, FlatMap.atKey, FlatMap.atKey,
        FlatMap.lookupKey_remove_ne hne]
    · rw [if_neg hd, FlatMap.atKey, FlatMap.atKey,
        FlatMap.lookupKey_insertPair_ne hne]
  · rw [FlatMap.atKey, FlatMap.atKey, FlatMap.lookupKey_remove_ne hne]
  · rw [FlatMap.update]
    by_cases hd : A.is_default_value (op (FlatMap.atKey A l k)) = true
    · rw [if_pos hd, FlatMap.atKey, FlatMap.atKey,
        FlatMap.lookupKey_remove_ne hne]
    · rw [if_neg hd, FlatMap.atKey, FlatMap.atKey,
        FlatMap.lookupKey_insertPair_ne hne]
      rfl

/-- Witness for C10 at concrete inputs. -/
theorem point_mutation_frame_witness :
    FlatMap.atKey botNatAdapter
      (FlatMap.insert_or_assign botNatAdapter 2 9 [(1, 2), (3, 4)]) 3 =
      FlatMap.atKey botNatAdapter [(1, 2), (3, 4)] 3 ∧
    FlatMap.atKey botNatAdapter (FlatMap.remove 2 [(1, 2), (3, 4)]) 3 =
      FlatMap.atKey botNatAdapter [(1, 2), (3, 4)] 3 ∧
    FlatMap.atKey botNatAdapter
      (FlatMap.update botNatAdapter (fun v => v + 1) 2 [(1, 2), (3, 4)]) 3 =
      FlatMap.atKey botNatAdapter [(1, 2), (3, 4)] 3 :=
  point_mutation_frame botNatAdapter (fun v => v + 1) 2 3 9 [(1, 2), (3, 4)]
    (by decide)

namespace FlatMap
variable {V : Type}

theorem noDefaults_filter (A : ValueAdapter V) (pred : Nat → V → Bool)
    {l : List (Nat × V)} (h : NoDefaults A l) :
    NoDefaults A (filter pred l) :=
  fun p hp => h p (List.mem_of_mem_filter hp)

theorem noDefaults_erase_default_values (A : ValueAdapter V)
    (l : List (Nat × V)) : NoDefaults A (erase_default_values A l) := by
  intro p hp
  have := (List.mem_filter.mp hp).2
  simpa using this

theorem noDefaults_remove (A : ValueAdapter V) (k : Nat)
    {l : List (Nat × V)} (h : NoDefaults A l) :
    NoDefaults A (remove k l) :=
  fun p hp => h p (List.mem_of_mem_filter hp)

theorem mem_insertPair {k : Nat} {v : V} {l : List (Nat × V)} {p : Nat × V}
    (hp : p ∈ insertPair k v l) : p = (k, v) ∨ p ∈ l := by
  induction l with
  | nil => simpa [insertPair] using hp
  | cons q rest ih =>
    rw [insertPair] at hp
    by_cases h1 : q.1 < k
    · rw [if_pos h1] at hp
      rcases List.mem_cons.mp hp with hq | hp'
      · right; exact hq ▸ List.mem_cons_self _ _
      · rcases ih hp' with h | h
        · left; exact h
        · right; exact List.mem_cons_of_mem _ h
    · rw [if_neg h1] at hp
      by_cases h2 : q.1 = k
      · rw [if_pos h2] at hp
        rcases List.mem_cons.mp hp with hq | hp'
        · left; exact hq
        · right; exact List.mem_cons_of_mem _ hp'
      · rw [if_neg h2] at hp
        rcases List.mem_cons.mp hp with hq | hp'
        · left; exact hq
        · right; exact hp'

theorem noDefaults_insertPair (A : ValueAdapter V) {k : Nat} {v : V}
    {l : List (Nat × V)} (hv : A.is_default_value v = false)
    (h : NoDefaults A l) : NoDefaults A (insertPair k v l) := by
  intro p hp
  rcases mem_insertPair hp with h1 | h1
  · rw [h1]; exact hv
  · exact h p h1

theorem noDefaults_insert_or_assign (A : ValueAdapter V) (k : Nat) (v : V)
    {l : List (Nat × V)} (h : NoDefaults A l) :
    NoDefaults A (insert_or_assign A k v l) := by
  rw [insert_or_assign]
  by_cases hd : A.is_default_value v = true
  · rw [if_pos hd]; exact noDefaults_remove A k h
  · rw [if_neg hd]
    exact noDefaults_insertPair A (Bool.eq_false_iff.mpr hd) h

theorem noDefaults_update (A : ValueAdapter V) (op : V → V) (k : Nat)
    {l : List (Nat × V)} (h : NoDefaults A l) :
    NoDefaults A (update A op k l) := by
  rw [update]
  by_cases hd : A.is_default_value (op (atKey A l k)) = true
  · rw [if_pos hd]; exact noDefaults_remove A k h
  · rw [if_neg hd]
    exact noDefaults_insertPair A (Bool.eq_false_iff.mpr hd) h

theorem noDefaults_map (A : ValueAdapter V) (f : V → V)
    (l : List (Nat × V)) : NoDefaults A (map A f l) := by
  rw [map]
  by_cases hany : (l.map (fun p => (p.1, f p.2))).any
      (fun p => A.is_default_value p.2) = true
  · rw [if_pos hany]
    exact noDefaults_erase_default_values A _
  · rw [if_neg hany]
    intro p hp
    cases hbd : A.is_default_value p.2 with
    | false => rfl
    | true => exact absurd (List.any_eq_true.mpr ⟨p, hp, hbd⟩) hany

theorem noDefaults_foldl_insert (A : ValueAdapter V)
    (init : List (Nat × V)) :
    ∀ acc, NoDefaults A acc →
      NoDefaults A (init.foldl
        (fun acc p => insert_or_assign A p.1 p.2 acc) acc) := by
  induction init with
  | nil => intro acc hacc; exact hacc
  | cons p rest ih =>
    intro acc hacc
    rw [List.foldl_cons]
    exact ih _ (noDefaults_insert_or_assign A p.1 p.2 hacc)

theorem noDefaults_ofInitList (A : ValueAdapter V) (init : List (Nat × V)) :
    NoDefaults A (ofInitList A init) :=
  noDefaults_foldl_insert A init []
    (fun p hp => absurd hp (List.not_mem_nil p))

end FlatMap

/-- C2: every mutation preserves the sparsity invariant I1: starting from a
map with no stored default values, insert_or_assign, remove, update, map,
filter, union_with, intersection_with and clear all produce a map with no
stored default values, and construction from an initializer list produces
one unconditionally. -/
theorem sparsity_invariant_preserved {V : Type} (A : ValueAdapter V)
    (l other : List (Nat × V)) (hl : FlatMap.NoDefaults A l) :
    (∀ k v, FlatMap.NoDefaults A (FlatMap.insert_or_assign A k v l)) ∧
    (∀ k, FlatMap.NoDefaults A (FlatMap.remove k l)) ∧
    (∀ op k, FlatMap.NoDefaults A (FlatMap.update A op k l)) ∧
    (∀ f, FlatMap.NoDefaults A (FlatMap.map A f l)) ∧
    (∀ pred, FlatMap.NoDefaults A (FlatMap.filter pred l)) ∧
    (∀ c, FlatMap.NoDefaults A (FlatMap.union_with A c l other)) ∧
    (∀ c, FlatMap.NoDefaults A (FlatMap.intersection_with A c l other)) ∧
    FlatMap.NoDefaults A (FlatMap.clear l) ∧
    (∀ init, FlatMap.NoDefaults A (FlatMap.ofInitList A init)) :=
  ⟨fun k v => FlatMap.noDefaults_insert_or_assign A k v hl,
   fun k => FlatMap.noDefaults_remove A k hl,
   fun op k => FlatMap.noDefaults_update A op k hl,
   fun f => FlatMap.noDefaults_map A f l,
   fun pred => FlatMap.noDefaults_filter A pred hl,
   fun _ => FlatMap.noDefaults_erase_default_values A _,
   fun _ => FlatMap.noDefaults_erase_default_values A _,
   fun p hp => absurd hp (List.not_mem_nil p),
   fun init => FlatMap.noDefaults_ofInitList A init⟩

/-- Witness for C2 at concrete inputs. -/
theorem sparsity_invariant_preserved_witness :
    (∀ k v, FlatMap.NoDefaults botNatAdapter
      (FlatMap.insert_or_assign botNatAdapter k v [(1, 2)])) ∧
    (∀ k, FlatMap.NoDefaults botNatAdapter
      (FlatMap.remove k [(1, 2)])) ∧
    (∀ op k, FlatMap.NoDefaults botNatAdapter
      (FlatMap.update botNatAdapter op k [(1, 2)])) ∧
    (∀ f, FlatMap.NoDefaults botNatAdapter
      (FlatMap.map botNatAdapter f [(1, 2)])) ∧
    (∀ pred, FlatMap.NoDefaults botNatAdapter
      (FlatMap.filter pred [(1, 2)])) ∧
    (∀ c, FlatMap.NoDefaults botNatAdapter
      (FlatMap.union_with botNatAdapter c [(1, 2)] [(0, 3)])) ∧
    (∀ c, FlatMap.NoDefaults botNatAdapter
      (FlatMap.intersection_with botNatAdapter c [(1, 2)] [(0, 3)])) ∧
    FlatMap.NoDefaults botNatAdapter (FlatMap.clear [(1, 2)]) ∧
    (∀ init, FlatMap.NoDefaults botNatAdapter
      (FlatMap.ofInitList botNatAdapter init)) :=
  sparsity_invariant_preserved botNatAdapter [(1, 2)] [(0, 3)]
    (by simp [FlatMap.NoDefaults, botNatAdapter])

namespace FlatMap
variable {V : Type}

theorem key_mem_keys {p : Nat × V} {l : List (Nat × V)} (h : p ∈ l) :
    p.1 ∈ keys l := List.mem_map.mpr ⟨p, h, rfl⟩

theorem lt_of_mem_keys {k0 k : Nat} {l : List (Nat × V)}
    (h : ∀ r ∈ l, k0 < r.1) (hk : k ∈ keys l) : k0 < k := by
  obtain ⟨p, hp, rfl⟩ := List.mem_map.mp hk
  exact h p hp

theorem sortedKeys_filter (pred : Nat → V → Bool) {l : List (Nat × V)}
    (h : SortedKeys l) : SortedKeys (filter pred l) :=
  List.Pairwise.sublist (List.filter_sublist l) h

theorem sortedKeys_remove (k : Nat) {l : List (Nat × V)}
    (h : SortedKeys l) : SortedKeys (remove k l) :=
  List.Pairwise.sublist (List.filter_sublist l) h

theorem sortedKeys_erase_default_values (A : ValueAdapter V)
    {l : List (Nat × V)} (h : SortedKeys l) :
    SortedKeys (erase_default_values A l) :=
  sortedKeys_filter _ h

theorem sortedKeys_insertPair (k : Nat) (v : V) {l : List (Nat × V)}
    (h : SortedKeys l) : SortedKeys (insertPair k v l) := by
  induction l with
  | nil => simp [insertPair, SortedKeys]
  | cons q rest ih =>
    have h' := List.pairwise_cons.mp h
    rw [insertPair]
    by_cases h1 : q.1 < k
    · rw [if_pos h1]
      rw [SortedKeys, List.pairwise_cons]
      refine ⟨?_, ih h'.2⟩
      intro r hr
      rcases mem_insertPair hr with h2 | h2
      · rw [h2]; exact h1
      · exact h'.1 r h2
    · rw [if_neg h1]
      by_cases h2 : q.1 = k
      · rw [if_pos h2]
        rw [SortedKeys, List.pairwise_cons]
        refine ⟨?_, h'.2⟩
        intro r hr
        exact h2 ▸ h'.1 r hr
      · rw [if_neg h2]
        have hk : k < q.1 := by omega
        rw [SortedKeys, List.pairwise_cons]
        refine ⟨?_, h⟩
        intro r hr
        rcases List.mem_cons.mp hr with h3 | h3
        · rw [h3]; exact hk
        · exact Nat.lt_trans hk (h'.1 r h3)

theorem sortedKeys_insert_or_assign (A : ValueAdapter V) (k : Nat) (v : V)
    {l : List (Nat × V)} (h : SortedKeys l) :
    SortedKeys (insert_or_assign A k v l) := by
  rw [insert_or_assign]
  by_cases hd : A.is_default_value v = true
  · rw [if_pos hd]; exact sortedKeys_remove k h
  · rw [if_neg hd]; exact sortedKeys_insertPair k v h

theorem sortedKeys_update (A : ValueAdapter V) (op : V → V) (k : Nat)
    {l : List (Nat × V)} (h : SortedKeys l) :
    SortedKeys (update A op k l) := by
  rw [update]
  by_cases hd : A.is_default_value (op (atKey A l k)) = true
  · rw [if_pos hd]; exact sortedKeys_remove k h
  · rw [if_neg hd]; exact sortedKeys_insertPair k _ h

theorem sortedKeys_map (A : ValueAdapter V) (f : V → V)
    {l : List (Nat × V)} (h : SortedKeys l) :
    SortedKeys (map A f l) := by
  have hl2 : SortedKeys (l.map (fun p => (p.1, f p.2))) := by
    rw [SortedKeys, List.pairwise_map]
    exact h
  rw [map]
  by_cases hany : (l.map (fun p => (p.1, f p.2))).any
      (fun p => A.is_default_value p.2) = true
  · rw [if_pos hany]; exact sortedKeys_erase_default_values A hl2
  · rw [if_neg hany]; exact hl2

end FlatMap

namespace FlatMap
variable {V : Type}

theorem unionMerge_cons (c : V → V → V) (l : List (Nat × V)) (q : Nat × V)
    (orest : List (Nat × V)) :
    unionMerge c l (q :: orest) =
      match l.dropWhile (fun p => decide (p.1 < q.1)) with
      | [] => l.takeWhile (fun p => decide (p.1 < q.1)) ++ q :: orest
      | p :: rest =>
        if p.1 = q.1 then
          l.takeWhile (fun p2 => decide (p2.1 < q.1)) ++
            (p.1, c p.2 q.2) :: unionMerge c rest orest
        else
          l.takeWhile (fun p2 => decide (p2.1 < q.1)) ++
            (q.1, q.2) :: unionMerge c (p :: rest) orest := by
  rw [unionMerge]

theorem mem_unionMerge_keys (c : V → V → V) :
    ∀ (other l : List (Nat × V)) (p : Nat × V), p ∈ unionMerge c l other →
      p.1 ∈ keys l ∨ p.1 ∈ keys other := by
  intro other
  induction other with
  | nil => intro l p hp; exact Or.inl (key_mem_keys hp)
  | cons q orest ih =>
    intro l p hp
    rw [unionMerge_cons] at hp
    cases hdd : l.dropWhile (fun r => decide (r.1 < q.1)) with
    | nil =>
      rw [hdd] at hp
      simp only at hp
      rcases List.mem_append.mp hp with h | h
      · exact Or.inl (key_mem_keys ((List.takeWhile_sublist _).subset h))
      · exact Or.inr (key_mem_keys h)
    | cons p0 rest =>
      rw [hdd] at hp
      simp only at hp
      have hsub : ∀ r ∈ p0 :: rest, r ∈ l := by
        intro r hr
        exact (List.dropWhile_sublist _).subset (hdd ▸ hr)
      by_cases hpq : p0.1 = q.1
      · rw [if_pos hpq] at hp
        rcases List.mem_append.mp hp with h | h
        · exact Or.inl (key_mem_keys ((List.takeWhile_sublist _).subset h))
        · rcases List.mem_cons.mp h with h | h
          · left
            have : p0.1 ∈ keys l :=
              key_mem_keys (hsub p0 (List.mem_cons_self _ _))
            rw [h]; exact this
          · rcases ih rest p h with h2 | h2
            · left
              obtain ⟨r, hr, hrk⟩ := List.mem_map.mp h2
              exact hrk ▸ key_mem_keys
                (hsub r (List.mem_cons_of_mem _ hr))
            · right
              exact List.mem_cons_of_mem _ h2
      · rw [if_neg hpq] at hp
        rcases List.mem_append.mp hp with h | h
        · exact Or.inl (key_mem_keys ((List.takeWhile_sublist _).subset h))
        · rcases List.mem_cons.mp h with h | h
          · right
            rw [h]
            exact List.mem_cons_self _ _
          · rcases ih (p0 :: rest) p h with h2 | h2
            · left
              obtain ⟨r, hr, hrk⟩ := List.mem_map.mp h2
              exact hrk ▸ key_mem_keys (hsub r hr)
            · right
              exact List.mem_cons_of_mem _ h2

theorem sortedKeys_unionMerge (c : V → V → V) :
    ∀ (other l : List (Nat × V)), SortedKeys l → SortedKeys other →
      SortedKeys (unionMerge c l other) := by
  intro other
  induction other with
  | nil => intro l hl _; exact hl
  | cons q orest ih =>
    intro l hl ho
    have ho' := List.pairwise_cons.mp ho
    have htake : SortedKeys (l.takeWhile (fun p => decide (p.1 < q.1))) :=
      List.Pairwise.sublist (List.takeWhile_sublist _) hl
    have htake_lt : ∀ a ∈ l.takeWhile (fun p => decide (p.1 < q.1)),
        a.1 < q.1 := fun a ha => mem_takeWhile_key_lt ha
    rw [unionMerge_cons]
    cases hdd : l.dropWhile (fun r => decide (r.1 < q.1)) with
    | nil =>
      simp only
      rw [SortedKeys, List.pairwise_append]
      refine ⟨htake, ho, ?_⟩
      intro a ha b hb
      have ha' := htake_lt a ha
      rcases List.mem_cons.mp hb with hb | hb
      · rw [hb]; exact ha'
      · exact Nat.lt_trans ha' (ho'.1 b hb)
    | cons p0 rest =>
      simp only
      have hd_sorted : SortedKeys (p0 :: rest) := by
        have := List.Pairwise.sublist (List.dropWhile_sublist
          (fun r : Nat × V => decide (r.1 < q.1))) hl
        rwa [hdd] at this
      have hd' := List.pairwise_cons.mp hd_sorted
      have hp0 : ¬ p0.1 < q.1 := by
        have := dropWhile_head_false hdd
        simpa using this
      by_cases hpq : p0.1 = q.1
      · rw [if_pos hpq]
        rw [SortedKeys, List.pairwise_append]
        refine ⟨htake, ?_, ?_⟩
        · rw [List.pairwise_cons]
          refine ⟨?_, ih rest hd'.2 ho'.2⟩
          intro b hb
          rcases mem_unionMerge_keys c orest rest b hb with h2 | h2
          · exact lt_of_mem_keys hd'.1 h2
          · have := lt_of_mem_keys ho'.1 h2
            show p0.1 < b.1
            omega
        · intro a ha b hb
          have ha' := htake_lt a ha
          have hap0 : a.1 < p0.1 := by omega
          rcases List.mem_cons.mp hb with hb | hb
          · rw [hb]; exact hap0
          · rcases mem_unionMerge_keys c orest rest b hb with h2 | h2
            · exact Nat.lt_trans hap0 (lt_of_mem_keys hd'.1 h2)
            · exact Nat.lt_trans ha' (lt_of_mem_keys ho'.1 h2)
      · rw [if_neg hpq]
        have hq_lt : q.1 < p0.1 := by omega
        rw [SortedKeys, List.pairwise_append]
        refine ⟨htake, ?_, ?_⟩
        · rw [List.pairwise_cons]
          refine ⟨?_, ih (p0 :: rest) hd_sorted ho'.2⟩
          intro b hb
          rcases mem_unionMerge_keys c orest (p0 :: rest) b hb with h2 | h2
          · have : ∀ r ∈ p0 :: rest, q.1 < r.1 := by
              intro r hr
              rcases List.mem_cons.mp hr with hr | hr
              · rw [hr]; exact hq_lt
              · exact Nat.lt_trans hq_lt (hd'.1 r hr)
            exact lt_of_mem_keys this h2
          · exact lt_of_mem_keys ho'.1 h2
        · intro a ha b hb
          have ha' := htake_lt a ha
          rcases List.mem_cons.mp hb with hb | hb
          · rw [hb]; exact ha'
          · rcases mem_unionMerge_keys c orest (p0 :: rest) b hb with h2 | h2
            · have : ∀ r ∈ p0 :: rest, q.1 < r.1 := by
                intro r hr
                rcases List.mem_cons.mp hr with hr | hr
                · rw [hr]; exact hq_lt
                · exact Nat.lt_trans hq_lt (hd'.1 r hr)
              exact Nat.lt_trans ha' (lt_of_mem_keys this h2)
            · exact Nat.lt_trans ha' (lt_of_mem_keys ho'.1 h2)

end FlatMap

namespace FlatMap
variable {V : Type}

theorem interMerge_cons (A : ValueAdapter V) (c : V → V → V) (p0 : Nat × V)
    (rest other : List (Nat × V)) :
    interMerge A c (p0 :: rest) other =
      match other.dropWhile (fun q => decide (q.1 < p0.1)) with
      | [] => []
      | q :: orest =>
        if q.1 = p0.1 then (p0.1, c p0.2 q.2) :: interMerge A c rest orest
        else (p0.1, A.default_value) :: interMerge A c rest (q :: orest) := by
  rw [interMerge]

theorem mem_interMerge_keys (A : ValueAdapter V) (c : V → V → V) :
    ∀ (l other : List (Nat × V)) (p : Nat × V), p ∈ interMerge A c l other →
      p.1 ∈ keys l := by
  intro l
  induction l with
  | nil =>
    intro other p hp
    rw [interMerge] at hp
    cases hp
  | cons p0 rest ih =>
    intro other p hp
    rw [interMerge_cons] at hp
    cases hdd : other.dropWhile (fun q => decide (q.1 < p0.1)) with
    | nil => rw [hdd] at hp; simp only at hp; cases hp
    | cons q orest =>
      rw [hdd] at hp
      simp only at hp
      by_cases hqp : q.1 = p0.1
      · rw [if_pos hqp] at hp
        rcases List.mem_cons.mp hp with h | h
        · rw [h]
          exact List.mem_map.mpr ⟨p0, List.mem_cons_self _ _, rfl⟩
        · rw [keys, List.map_cons]
          exact List.mem_cons_of_mem _ (ih orest p h)
      · rw [if_neg hqp] at hp
        rcases List.mem_cons.mp hp with h | h
        · rw [h]
          exact List.mem_map.mpr ⟨p0, List.mem_cons_self _ _, rfl⟩
        · rw [keys, List.map_cons]
          exact List.mem_cons_of_mem _ (ih (q :: orest) p h)

theorem sortedKeys_interMerge (A : ValueAdapter V) (c : V → V → V) :
    ∀ (l other : List (Nat × V)), SortedKeys l → SortedKeys other →
      SortedKeys (interMerge A c l other) := by
  intro l
  induction l with
  | nil =>
    intro other _ _
    rw [interMerge]
    exact List.Pairwise.nil
  | cons p0 rest ih =>
    intro other hl ho
    have hl' := List.pairwise_cons.mp hl
    rw [interMerge_cons]
    cases hdd : other.dropWhile (fun q => decide (q.1 < p0.1)) with
    | nil => exact List.Pairwise.nil
    | cons q orest =>
      simp only
      have hd_sorted : SortedKeys (q :: orest) := by
        have := List.Pairwise.sublist (List.dropWhile_sublist
          (fun r : Nat × V => decide (r.1 < p0.1))) ho
        rwa [hdd] at this
      have hd' := List.pairwise_cons.mp hd_sorted
      by_cases hqp : q.1 = p0.1
      · rw [if_pos hqp]
        rw [SortedKeys, List.pairwise_cons]
        refine ⟨?_, ih orest hl'.2 hd'.2⟩
        intro b hb
        exact lt_of_mem_keys hl'.1 (mem_interMerge_keys A c rest orest b hb)
      · rw [if_neg hqp]
        rw [SortedKeys, List.pairwise_cons]
        refine ⟨?_, ih (q :: orest) hl'.2 hd_sorted⟩
        intro b hb
        exact lt_of_mem_keys hl'.1
          (mem_interMerge_keys A c rest (q :: orest) b hb)

theorem sortedKeys_union_with (A : ValueAdapter V) (c : V → V → V)
    {l other : List (Nat × V)} (hl : SortedKeys l) (ho : SortedKeys other) :
    SortedKeys (union_with A c l other) :=
  sortedKeys_erase_default_values A (sortedKeys_unionMerge c other l hl ho)

theorem sortedKeys_intersection_with (A : ValueAdapter V) (c : V → V → V)
    {l other : List (Nat × V)} (hl : SortedKeys l) (ho : SortedKeys other) :
    SortedKeys (intersection_with A c l other) :=
  sortedKeys_erase_default_values A (sortedKeys_interMerge A c l other hl ho)

end FlatMap

/-- C3: every operation preserves the order invariant I2: starting from
maps whose stored keys are strictly ascending, insert_or_assign, remove,
update, map, filter, union_with, intersection_with and clear all produce a
map whose stored keys are strictly ascending (hence duplicate-free); by
induction this holds for every sequence of these operations. -/
theorem order_invariant_preserved {V : Type} (A : ValueAdapter V)
    (l other : List (Nat × V))
    (hl : FlatMap.SortedKeys l) (ho : FlatMap.SortedKeys other) :
    (∀ k v, FlatMap.SortedKeys (FlatMap.insert_or_assign A k v l)) ∧
    (∀ k, FlatMap.SortedKeys (FlatMap.remove k l)) ∧
    (∀ op k, FlatMap.SortedKeys (FlatMap.update A op k l)) ∧
    (∀ f, FlatMap.SortedKeys (FlatMap.map A f l)) ∧
    (∀ pred, FlatMap.SortedKeys (FlatMap.filter pred l)) ∧
    (∀ c, FlatMap.SortedKeys (FlatMap.union_with A c l other)) ∧
    (∀ c, FlatMap.SortedKeys (FlatMap.intersection_with A c l other)) ∧
    FlatMap.SortedKeys (FlatMap.clear l) ∧
    (∀ k, (FlatMap.keys (FlatMap.remove k l)).Nodup) :=
  ⟨fun k v => FlatMap.sortedKeys_insert_or_assign A k v hl,
   fun k => FlatMap.sortedKeys_remove k hl,
   fun op k => FlatMap.sortedKeys_update A op k hl,
   fun f => FlatMap.sortedKeys_map A f hl,
   fun pred => FlatMap.sortedKeys_filter pred hl,
   fun c => FlatMap.sortedKeys_union_with A c hl ho,
   fun c => FlatMap.sortedKeys_intersection_with A c hl ho,
   List.Pairwise.nil,
   fun k => FlatMap.nodup_keys (FlatMap.sortedKeys_remove k hl)⟩

/-- Witness for C3 at concrete inputs. -/
theorem order_invariant_preserved_witness :
    (∀ k v, FlatMap.SortedKeys
      (FlatMap.insert_or_assign botNatAdapter k v [(1, 2), (3, 4)])) ∧
    (∀ k, FlatMap.SortedKeys (FlatMap.remove k [(1, 2), (3, 4)])) ∧
    (∀ op k, FlatMap.SortedKeys
      (FlatMap.update botNatAdapter op k [(1, 2), (3, 4)])) ∧
    (∀ f, FlatMap.SortedKeys (FlatMap.map botNatAdapter f [(1, 2), (3, 4)])) ∧
    (∀ pred, FlatMap.SortedKeys (FlatMap.filter pred [(1, 2), (3, 4)])) ∧
    (∀ c, FlatMap.SortedKeys
      (FlatMap.union_with botNatAdapter c [(1, 2), (3, 4)] [(0, 5), (2, 6)])) ∧
    (∀ c, FlatMap.SortedKeys (FlatMap.intersection_with botNatAdapter c
      [(1, 2), (3, 4)] [(0, 5), (2, 6)])) ∧
    FlatMap.SortedKeys (FlatMap.clear [(1, 2), (3, 4)]) ∧
    (∀ k, (FlatMap.keys (FlatMap.remove k [(1, 2), (3, 4)])).Nodup) :=
  order_invariant_preserved botNatAdapter [(1, 2), (3, 4)] [(0, 5), (2, 6)]
    (by simp [FlatMap.SortedKeys]) (by simp [FlatMap.SortedKeys])

namespace FlatMap
variable {V : Type}

theorem lookupKey_isSome_of_mem_keys {k : Nat} {l : List (Nat × V)}
    (h : k ∈ keys l) : ∃ v, lookupKey k l = some v := by
  cases hlk : lookupKey k l with
  | some v => exact ⟨v, rfl⟩
  | none =>
    exfalso
    obtain ⟨p, hp, hpk⟩ := mem_keys_iff.mp h
    exact lookupKey_eq_none_iff.mp hlk p hp hpk

theorem equals_eq_true_iff (A : ValueAdapter V) :
    ∀ (l1 l2 : List (Nat × V)), SortedKeys l1 → SortedKeys l2 →
    (equals A l1 l2 = true ↔
      ∀ k, (∃ v1 v2, lookupKey k l1 = some v1 ∧ lookupKey k l2 = some v2 ∧
              A.equals v1 v2 = true) ∨
            (lookupKey k l1 = none ∧ lookupKey k l2 = none)) := by
  intro l1
  induction l1 with
  | nil =>
    intro l2 _ _
    cases l2 with
    | nil => simp [equals, lookupKey]
    | cons q l2' =>
      constructor
      · intro h
        rw [show equals A [] (q :: l2') = false from rfl] at h
        cases h
      · intro hprop
        exfalso
        rcases hprop q.1 with ⟨v1, v2, h1, _, _⟩ | ⟨_, h2⟩
        · cases h1
        · simp [lookupKey] at h2
  | cons p l1' ih =>
    intro l2 hs1 hs2
    have hs1' := List.pairwise_cons.mp hs1
    cases l2 with
    | nil =>
      constructor
      · intro h
        rw [show equals A (p :: l1') [] = false from rfl] at h
        cases h
      · intro hprop
        exfalso
        rcases hprop p.1 with ⟨v1, v2, _, h2, _⟩ | ⟨h1, _⟩
        · cases h2
        · simp [lookupKey] at h1
    | cons q l2' =>
      have hs2' := List.pairwise_cons.mp hs2
      have hp_look : lookupKey p.1 (p :: l1') = some p.2 := by
        simp [lookupKey]
      have hq_look : lookupKey q.1 (q :: l2') = some q.2 := by
        simp [lookupKey]
      rw [show equals A (p :: l1') (q :: l2') =
        (PairEqual A p q && equals A l1' l2') from rfl]
      rw [Bool.and_eq_true]
      constructor
      · rintro ⟨hpair, htail⟩
        rw [PairEqual, Bool.and_eq_true] at hpair
        have hk : p.1 = q.1 := by simpa using hpair.1
        have hv : A.equals p.2 q.2 = true := hpair.2
        intro k
        by_cases hkp : k = p.1
        · subst hkp
          left
          refine ⟨p.2, q.2, hp_look, ?_, hv⟩
          rw [hk]
          exact hq_look
        · have hpne : p.1 ≠ k := fun hh => hkp hh.symm
          have hqne : q.1 ≠ k := by omega
          rw [lookupKey_cons_ne hpne, lookupKey_cons_ne hqne]
          exact (ih l2' hs1'.2 hs2'.2).mp htail k
      · intro hprop
        have hkeq : p.1 = q.1 := by
          by_contra hne
          rcases Nat.lt_or_ge p.1 q.1 with hlt | hge
          · have hnone : lookupKey p.1 (q :: l2') = none := by
              apply lookupKey_eq_none
              intro r hr
              rcases List.mem_cons.mp hr with hr | hr
              · rw [hr]; omega
              · have := hs2'.1 r hr; omega
            rcases hprop p.1 with ⟨v1, v2, _, h2, _⟩ | ⟨h1, _⟩
            · rw [hnone] at h2; cases h2
            · rw [hp_look] at h1; cases h1
          · have hqlt : q.1 < p.1 := by omega
            have hnone : lookupKey q.1 (p :: l1') = none := by
              apply lookupKey_eq_none
              intro r hr
              rcases List.mem_cons.mp hr with hr | hr
              · rw [hr]; omega
              · have := hs1'.1 r hr; omega
            rcases hprop q.1 with ⟨v1, v2, h1, _, _⟩ | ⟨_, h2⟩
            · rw [hnone] at h1; cases h1
            · rw [hq_look] at h2; cases h2
        constructor
        · rw [PairEqual, Bool.and_eq_true]
          refine ⟨by simpa using hkeq, ?_⟩
          rcases hprop p.1 with ⟨v1, v2, h1, h2, hv⟩ | ⟨h1, _⟩
          · rw [hp_look] at h1
            have h2' : lookupKey p.1 (q :: l2') = some q.2 := by
              rw [hkeq]; exact hq_look
            rw [h2'] at h2
            cases h1; cases h2
            exact hv
          · rw [hp_look] at h1; cases h1
        · apply (ih l2' hs1'.2 hs2'.2).mpr
          intro k
          by_cases hkp : k = p.1
          · subst hkp
            right
            constructor
            · apply lookupKey_eq_none
              intro r hr
              have := hs1'.1 r hr
              omega
            · apply lookupKey_eq_none
              intro r hr
              have := hs2'.1 r hr
              omega
          · have hpne : p.1 ≠ k := fun hh => hkp hh.symm
            have hqne : q.1 ≠ k := by omega
            rcases hprop k with ⟨v1, v2, h1, h2, hv⟩ | ⟨h1, h2⟩
            · rw [lookupKey_cons_ne hpne] at h1
              rw [lookupKey_cons_ne hqne] at h2
              exact Or.inl ⟨v1, v2, h1, h2, hv⟩
            · rw [lookupKey_cons_ne hpne] at h1
              rw [lookupKey_cons_ne hqne] at h2
              exact Or.inr ⟨h1, h2⟩

end FlatMap

/-- C4: for maps satisfying I1 (and the structural order invariant I2),
`equals` returns true iff the two maps store identical key sets with
adapter-equal values at each shared key, which — because no default value
is ever stored — is also equivalent to `at(k)` being adapter-equal on the
two maps for every key `k` of the unbounded key domain. -/
theorem equals_characterization {V : Type} (A : ValueAdapter V)
    (m1 m2 : List (Nat × V))
    (hs1 : FlatMap.SortedKeys m1) (hs2 : FlatMap.SortedKeys m2)
    (hd1 : FlatMap.NoDefaults A m1) (hd2 : FlatMap.NoDefaults A m2)
    (hrefl : A.equals A.default_value A.default_value = true)
    (heqdL : ∀ v, A.equals A.default_value v = true →
      A.is_default_value v = true)
    (heqdR : ∀ v, A.equals v A.default_value = true →
      A.is_default_value v = true) :
    (FlatMap.equals A m1 m2 = true ↔
      ((∀ k, k ∈ FlatMap.keys m1 ↔ k ∈ FlatMap.keys m2) ∧
       (∀ k v1 v2, FlatMap.lookupKey k m1 = some v1 →
         FlatMap.lookupKey k m2 = some v2 → A.equals v1 v2 = true))) ∧
    (FlatMap.equals A m1 m2 = true ↔
      ∀ k, A.equals (FlatMap.atKey A m1 k) (FlatMap.atKey A m2 k) = true) := by
  have hA := FlatMap.equals_eq_true_iff A m1 m2 hs1 hs2
  constructor
  · rw [hA]
    constructor
    · intro hprop
      constructor
      · intro k
        constructor
        · intro hk1
          obtain ⟨v1, hv1⟩ := FlatMap.lookupKey_isSome_of_mem_keys hk1
          rcases hprop k with ⟨v1', v2, h1, h2, hv⟩ | ⟨h1, h2⟩
          · exact FlatMap.mem_keys_of_lookupKey h2
          · rw [hv1] at h1; cases h1
        · intro hk2
          obtain ⟨v2, hv2⟩ := FlatMap.lookupKey_isSome_of_mem_keys hk2
          rcases hprop k with ⟨v1, v2', h1, h2, hv⟩ | ⟨h1, h2⟩
          · exact FlatMap.mem_keys_of_lookupKey h1
          · rw [hv2] at h2; cases h2
      · intro k v1 v2 h1 h2
        rcases hprop k with ⟨v1', v2', h1', h2', hv⟩ | ⟨h1', _⟩
        · rw [h1'] at h1
          rw [h2'] at h2
          cases h1; cases h2
          exact hv
        · rw [h1'] at h1; cases h1
    · rintro ⟨hksets, hshared⟩ k
      cases h1 : FlatMap.lookupKey k m1 with
      | some v1 =>
        have hk2 : k ∈ FlatMap.keys m2 :=
          (hksets k).mp (FlatMap.mem_keys_of_lookupKey h1)
        obtain ⟨v2, h2⟩ := FlatMap.lookupKey_isSome_of_mem_keys hk2
        exact Or.inl ⟨v1, v2, rfl, h2, hshared k v1 v2 h1 h2⟩
      | none =>
        have hk1 : k ∉ FlatMap.keys m1 := by
          intro hk
          obtain ⟨v, hv⟩ := FlatMap.lookupKey_isSome_of_mem_keys hk
          rw [h1] at hv; cases hv
        have hk2 : k ∉ FlatMap.keys m2 := fun hk => hk1 ((hksets k).mpr hk)
        have h2 : FlatMap.lookupKey k m2 = none := by
          cases h2' : FlatMap.lookupKey k m2 with
          | none => rfl
          | some v => exact absurd (FlatMap.mem_keys_of_lookupKey h2') hk2
        exact Or.inr ⟨rfl, h2⟩
  · rw [hA]
    apply forall_congr'
    intro k
    constructor
    · intro hk
      rcases hk with ⟨v1, v2, h1, h2, hv⟩ | ⟨h1, h2⟩
      · rw [FlatMap.atKey, FlatMap.atKey, h1, h2, Option.getD_some,
          Option.getD_some]
        exact hv
      · rw [FlatMap.atKey, FlatMap.atKey, h1, h2, Option.getD_none]
        exact hrefl
    · intro hk
      cases h1 : FlatMap.lookupKey k m1 with
      | some v1 =>
        cases h2 : FlatMap.lookupKey k m2 with
        | some v2 =>
          rw [FlatMap.atKey, FlatMap.atKey, h1, h2, Option.getD_some,
            Option.getD_some] at hk
          exact Or.inl ⟨v1, v2, rfl, rfl, hk⟩
        | none =>
          exfalso
          rw [FlatMap.atKey, FlatMap.atKey, h1, h2, Option.getD_some,
            Option.getD_none] at hk
          have hdf := heqdR v1 hk
          have hm := hd1 _ (FlatMap.lookupKey_mem h1)
          rw [hm] at hdf
          cases hdf
      | none =>
        cases h2 : FlatMap.lookupKey k m2 with
        | some v2 =>
          exfalso
          rw [FlatMap.atKey, FlatMap.atKey, h1, h2, Option.getD_none,
            Option.getD_some] at hk
          have hdf := heqdL v2 hk
          have hm := hd2 _ (FlatMap.lookupKey_mem h2)
          rw [hm] at hdf
          cases hdf
        | none => exact Or.inr ⟨rfl, rfl⟩

/-- Witness for C4 at the concrete Bottom-default adapter. -/
theorem equals_characterization_witness :
    (FlatMap.equals botNatAdapter [(1, 2)] [(1, 2), (3, 4)] = true ↔
      ((∀ k, k ∈ FlatMap.keys [((1 : Nat), (2 : Nat))] ↔
        k ∈ FlatMap.keys [((1 : Nat), (2 : Nat)), (3, 4)]) ∧
       (∀ k v1 v2, FlatMap.lookupKey k [((1 : Nat), (2 : Nat))] = some v1 →
         FlatMap.lookupKey k [((1 : Nat), (2 : Nat)), (3, 4)] = some v2 →
         botNatAdapter.equals v1 v2 = true))) ∧
    (FlatMap.equals botNatAdapter [(1, 2)] [(1, 2), (3, 4)] = true ↔
      ∀ k, botNatAdapter.equals
        (FlatMap.atKey botNatAdapter [(1, 2)] k)
        (FlatMap.atKey botNatAdapter [(1, 2), (3, 4)] k) = true) :=
  equals_characterization botNatAdapter [(1, 2)] [(1, 2), (3, 4)]
    (by simp [FlatMap.SortedKeys]) (by simp [FlatMap.SortedKeys])
    (by simp [FlatMap.NoDefaults, botNatAdapter])
    (by simp [FlatMap.NoDefaults, botNatAdapter])
    (by decide)
    (fun v h => by
      simp [botNatAdapter] at h ⊢
      omega)
    (fun v h => h)
